import Mathlib

/-!
Shallow embedding of `src/main.ts` of the last-successful-build action.

The program fetches workflow runs, filters and sorts them, then scans for
the first run passing the branch / commit-verification / job checks,
falling back to the last examined run's SHA when none qualifies.

External I/O is modelled by data passed in:
* `fetch : Except String (List String)` is the outcome of the one
  history-listing command (`git log --format=format:%H`), already split
  into lines as the code does with `stdout.trim().split("\n")`;
* `jobsOf : Nat → List JobOutcome` is the job-listing API, keyed by run id;
* `created_at : Int` is the value of `new Date(run.created_at).getTime()`.

Log calls (`core.info` / `core.warning`) are modelled as `LogEvent`s;
`core.debug` calls are not modelled.
-/

namespace LastBuild

/-- Outcome of one job of a workflow run, as used by the code
(`job.name`, `job.conclusion`). -/
structure JobOutcome where
  name : String
  conclusion : String
deriving DecidableEq

/-- One workflow run record, with the fields the code reads.
`created_at` is the millisecond timestamp `new Date(x.created_at).getTime()`. -/
structure RunRecord where
  id : Nat
  head_sha : String
  head_branch : String
  created_at : Int
  conclusion : String
  html_url : String
deriving DecidableEq

/-- The inputs the selection logic depends on.  `core.getInput` yields `""`
for an unset input, and the code tests truthiness (`!inputs.branch`,
`inputs.job`), so "unset" is the empty string. -/
structure Inputs where
  branch : String
  job : String
  verify : Bool
deriving DecidableEq

/-- Structured model of the `core.info` / `core.warning` calls the code makes. -/
inductive LogEvent where
  | fetchShasInfo
  | fetchShasError
  | lookingForSha (sha : String)
  | verifyFailWarning (sha : String)
  | usingShaInfo (sha : String) (verified : Bool)
  | noPreviousRunsInfo
  | unableToDetermineWarning
deriving DecidableEq

/-- The module-level mutable `let repoShas: string[] | undefined`. -/
structure VerifierState where
  repoShas : Option (List String)
deriving DecidableEq

/-- Result of one `verifyCommit` call: the boolean, the updated cache
state, and the logs emitted. -/
structure VerifyResult where
  ok : Bool
  state : VerifierState
  events : List LogEvent
deriving DecidableEq

/-- Embedding of `verifyCommit` from `src/main.ts`.  On a cache miss it runs
the history-listing command (`fetch`); on failure it sets the cache to `[]`,
warns and returns `false`; otherwise it answers by membership in the cache. -/
def verifyCommit (fetch : Except String (List String)) (sha : String)
    (st : VerifierState) : VerifyResult :=
  match st.repoShas with
  | none =>
    match fetch with
    | Except.ok l =>
      { ok := l.contains sha, state := ⟨some l⟩,
        events := [LogEvent.fetchShasInfo, LogEvent.lookingForSha sha] }
    | Except.error _ =>
      { ok := false, state := ⟨some []⟩,
        events := [LogEvent.fetchShasInfo, LogEvent.fetchShasError] }
  | some l =>
    { ok := l.contains sha, state := st, events := [LogEvent.lookingForSha sha] }

/-- The verification answer `verifyCommit` gives once the cache is settled
from `fetch` (membership in the fetched list; always `false` after a failed
fetch). -/
def fetchVerified (fetch : Except String (List String)) (sha : String) : Bool :=
  match fetch with
  | Except.ok l => l.contains sha
  | Except.error _ => false

/-- The verification answer as a pure function of the current cache state:
cache contents if present, otherwise what settling from `fetch` would give. -/
def verifiedOf (fetch : Except String (List String)) (st : VerifierState)
    (sha : String) : Bool :=
  match st.repoShas with
  | some l => l.contains sha
  | none => fetchVerified fetch sha

/-- Embedding of the inner `for (const job of jobs.data.jobs)` loop: `true`
iff some job has exactly the wanted name and conclusion `"success"`. -/
def foundJobLoop (jobName : String) : List JobOutcome → Bool
  | [] => false
  | j :: rest =>
    if j.name == jobName then
      if j.conclusion == "success" then true
      else foundJobLoop jobName rest
    else foundJobLoop jobName rest

/-- The pre-ranking filter predicate from `src/main.ts` lines 69-73:
`(!inputs.branch || x.head_branch === inputs.branch) &&
 (inputs.job || x.conclusion === "success")`. -/
def keepRun (inputs : Inputs) (x : RunRecord) : Bool :=
  (inputs.branch == "" || x.head_branch == inputs.branch) &&
  (inputs.job != "" || x.conclusion == "success")

/-- The sort comparator: `(r1, r2) => t(r2) - t(r1)` orders `r1` before `r2`
iff `t(r2) ≤ t(r1)`.  `Array.prototype.sort` is stable, as is
`List.mergeSort`. -/
def runLE (r1 r2 : RunRecord) : Bool :=
  decide (r2.created_at ≤ r1.created_at)

/-- Embedding of the `runs` pipeline: filter then stable descending sort by
creation time. -/
def rankRuns (inputs : Inputs) (workflow_runs : List RunRecord) : List RunRecord :=
  (workflow_runs.filter (keepRun inputs)).mergeSort runLE

/-- Result of the scan loop over the ranked runs: the selected `sha`, the
`lastSha` accumulator, the verifier cache state, the number of loop
iterations entered, and the logs emitted. -/
structure ScanResult where
  sha : Option String
  lastSha : Option String
  state : VerifierState
  examined : Nat
  events : List LogEvent
deriving DecidableEq

/-- Account for one loop iteration that did not `break`: prepend its logs
and count it. -/
def withStep (evs : List LogEvent) (res : ScanResult) : ScanResult :=
  { sha := res.sha, lastSha := res.lastSha, state := res.state,
    examined := res.examined + 1, events := evs ++ res.events }

/-- Embedding of the `for (const run of runs)` loop of `src/main.ts`
lines 84-129: per run, set `lastSha`, then skip on branch mismatch, failed
verification (only when `verify` is set), or failed job check (only when a
job filter is set); otherwise record the run's SHA and stop. -/
def scanLoop (inputs : Inputs) (fetch : Except String (List String))
    (jobsOf : Nat → List JobOutcome) :
    List RunRecord → VerifierState → Option String → ScanResult
  | [], st, lastSha =>
    { sha := none, lastSha := lastSha, state := st, examined := 0, events := [] }
  | r :: rest, st, _ =>
    if inputs.branch != "" && r.head_branch != inputs.branch then
      withStep [] (scanLoop inputs fetch jobsOf rest st (some r.head_sha))
    else
      let v := if inputs.verify then verifyCommit fetch r.head_sha st
               else { ok := true, state := st, events := [] }
      if inputs.verify && !v.ok then
        withStep (v.events ++ [LogEvent.verifyFailWarning r.head_sha])
          (scanLoop inputs fetch jobsOf rest v.state (some r.head_sha))
      else
        if inputs.job != "" && !(foundJobLoop inputs.job (jobsOf r.id)) then
          withStep v.events
            (scanLoop inputs fetch jobsOf rest v.state (some r.head_sha))
        else
          { sha := some r.head_sha, lastSha := some r.head_sha, state := v.state,
            examined := 1,
            events := v.events ++ [LogEvent.usingShaInfo r.head_sha inputs.verify] }

/-- All per-run checks of one loop iteration as a pure predicate, with the
verification answer supplied as `ver`: the run passes iff none of the three
skip conditions fires. -/
def passes (inputs : Inputs) (ver : String → Bool)
    (jobsOf : Nat → List JobOutcome) (r : RunRecord) : Bool :=
  !(inputs.branch != "" && r.head_branch != inputs.branch) &&
  !(inputs.verify && !(ver r.head_sha)) &&
  !(inputs.job != "" && !(foundJobLoop inputs.job (jobsOf r.id)))

/-- JavaScript truthiness of the `sha` variable (`string | undefined`):
falsy when `undefined` or the empty string. -/
def jsFalsyStr (o : Option String) : Bool :=
  match o with
  | none => true
  | some s => s == ""

/-- Output of the whole selection: the emitted `sha` and the logs. -/
structure SelectResult where
  sha : Option String
  events : List LogEvent
deriving DecidableEq

/-- Embedding of the tail of `run()` (`src/main.ts` lines 68-141): rank the
runs, scan them if any (else log that none were found), then replace a falsy
`sha` by `lastSha` with the "unable to determine" warning, and emit. -/
def selectSha (inputs : Inputs) (fetch : Except String (List String))
    (jobsOf : Nat → List JobOutcome) (workflow_runs : List RunRecord) :
    SelectResult :=
  let runs := rankRuns inputs workflow_runs
  let scanned :=
    if 0 < runs.length then
      scanLoop inputs fetch jobsOf runs ⟨none⟩ none
    else
      { sha := none, lastSha := none, state := ⟨none⟩, examined := 0,
        events := [LogEvent.noPreviousRunsInfo] }
  if jsFalsyStr scanned.sha then
    { sha := scanned.lastSha,
      events := scanned.events ++ [LogEvent.unableToDetermineWarning] }
  else
    { sha := scanned.sha, events := scanned.events }

/-- The scan loop with the defensive branch re-check (lines 90-92) removed,
everything else identical; used to state that the re-check is redundant. -/
def scanLoopNR (inputs : Inputs) (fetch : Except String (List String))
    (jobsOf : Nat → List JobOutcome) :
    List RunRecord → VerifierState → Option String → ScanResult
  | [], st, lastSha =>
    { sha := none, lastSha := lastSha, state := st, examined := 0, events := [] }
  | r :: rest, st, _ =>
    let v := if inputs.verify then verifyCommit fetch r.head_sha st
             else { ok := true, state := st, events := [] }
    if inputs.verify && !v.ok then
      withStep (v.events ++ [LogEvent.verifyFailWarning r.head_sha])
        (scanLoopNR inputs fetch jobsOf rest v.state (some r.head_sha))
    else
      if inputs.job != "" && !(foundJobLoop inputs.job (jobsOf r.id)) then
        withStep v.events
          (scanLoopNR inputs fetch jobsOf rest v.state (some r.head_sha))
      else
        { sha := some r.head_sha, lastSha := some r.head_sha, state := v.state,
          examined := 1,
          events := v.events ++ [LogEvent.usingShaInfo r.head_sha inputs.verify] }

/-- No branch filter, no job filter, verification off. -/
def cInputsPlain : Inputs := ⟨"", "", false⟩

/-- No branch filter, job filter `"test"`, verification off. -/
def cInputsJob : Inputs := ⟨"", "test", false⟩

/-- No branch filter, no job filter, verification on. -/
def cInputsVerify : Inputs := ⟨"", "", true⟩

/-- A successful run used as a concrete fixture. -/
def cRunW : RunRecord := ⟨7, "W", "main", 5, "success", ""⟩

/-- The more recent of two fixture runs (timestamp 2, SHA `"A"`). -/
def cRunA : RunRecord := ⟨1, "A", "main", 2, "failure", ""⟩

/-- The older of two fixture runs (timestamp 1, SHA `"B"`). -/
def cRunB : RunRecord := ⟨2, "B", "main", 1, "failure", ""⟩

/-- A job-listing collaborator returning no jobs for any run. -/
def noJobs : Nat → List JobOutcome := fun _ => []

/-- Recognizer for the history-listing log event, used to count
history-listing invocations. -/
def isFetchInfo : LogEvent → Bool
  | LogEvent.fetchShasInfo => true
  | _ => false

/-- One `verifyCommit` call answers according to `verifiedOf` at the current
cache state. -/
theorem verifyCommit_ok (fetch : Except String (List String)) (sha : String)
    (st : VerifierState) :
    (verifyCommit fetch sha st).ok = verifiedOf fetch st sha := by
  cases st with
  | mk rs => cases rs <;> cases fetch <;> rfl

/-- A `verifyCommit` call never changes the verification answers: the cache
only settles to what `fetch` dictates. -/
theorem verifyCommit_state (fetch : Except String (List String)) (sha : String)
    (st : VerifierState) :
    verifiedOf fetch (verifyCommit fetch sha st).state = verifiedOf fetch st := by
  cases st with
  | mk rs => cases rs <;> cases fetch <;> funext s <;> rfl

/-- With the empty cache, `verifiedOf` is exactly `fetchVerified`. -/
theorem verifiedOf_initial (fetch : Except String (List String)) :
    verifiedOf fetch ⟨none⟩ = fetchVerified fetch := rfl

/-- The inner job loop finds exactly the jobs with the wanted name (exact,
case-sensitive string equality) and conclusion `"success"`. -/
theorem foundJobLoop_iff (jobName : String) (jobs : List JobOutcome) :
    foundJobLoop jobName jobs = true ↔
      ∃ j ∈ jobs, j.name = jobName ∧ j.conclusion = "success" := by
  induction jobs with
  | nil => simp [foundJobLoop]
  | cons j rest ih =>
    by_cases h1 : j.name = jobName
    · by_cases h2 : j.conclusion = "success"
      · simp [foundJobLoop, h1, h2]
      · simp [foundJobLoop, h1, h2, ih]
    · simp [foundJobLoop, h1, ih]

/-- Characterization of the scan loop: its `sha` is the head SHA of the
first ranked run passing all enabled checks (`List.find?`); verification
answers are unchanged by the scan; when no run qualifies, `lastSha` is the
last run's SHA (the repeated assignment folded over the list); when a run
qualifies, the loop entered exactly `i + 1` iterations, `i` the count of
preceding non-qualifying runs, and `lastSha` is the qualifying run's SHA. -/
theorem scanLoop_spec (inputs : Inputs) (fetch : Except String (List String))
    (jobsOf : Nat → List JobOutcome) :
    ∀ (runs : List RunRecord) (st : VerifierState) (last : Option String),
    ((scanLoop inputs fetch jobsOf runs st last).sha
        = (runs.find? (passes inputs (verifiedOf fetch st) jobsOf)).map RunRecord.head_sha)
    ∧ (verifiedOf fetch (scanLoop inputs fetch jobsOf runs st last).state
        = verifiedOf fetch st)
    ∧ (runs.find? (passes inputs (verifiedOf fetch st) jobsOf) = none →
        (scanLoop inputs fetch jobsOf runs st last).lastSha
          = runs.foldl (fun _ r => some r.head_sha) last)
    ∧ (∀ q, runs.find? (passes inputs (verifiedOf fetch st) jobsOf) = some q →
        (scanLoop inputs fetch jobsOf runs st last).examined
          = (runs.takeWhile
              (fun r => !(passes inputs (verifiedOf fetch st) jobsOf r))).length + 1
        ∧ (scanLoop inputs fetch jobsOf runs st last).lastSha = some q.head_sha) := by
  intro runs
  induction runs with
  | nil =>
    intro st last
    exact ⟨rfl, rfl, fun _ => rfl, fun q hq => by simp at hq⟩
  | cons r rest ih =>
    intro st last
    by_cases hb : (inputs.branch != "" && r.head_branch != inputs.branch) = true
    · -- branch mismatch: the run is skipped
      have hpr : passes inputs (verifiedOf fetch st) jobsOf r = false := by
        simp [passes, hb]
      have hprn : ¬ (passes inputs (verifiedOf fetch st) jobsOf r = true) := by
        simp [hpr]
      have hstep : scanLoop inputs fetch jobsOf (r :: rest) st last
          = withStep [] (scanLoop inputs fetch jobsOf rest st (some r.head_sha)) := by
        simp [scanLoop, hb]
      obtain ⟨ih1, ih2, ih3, ih4⟩ := ih st (some r.head_sha)
      refine ⟨?_, ?_, ?_, ?_⟩
      · simp [hstep, withStep, ih1, List.find?_cons_of_neg _ hprn]
      · simp [hstep, withStep, ih2]
      · intro hnone
        rw [List.find?_cons_of_neg _ hprn] at hnone
        simp [hstep, withStep, ih3 hnone]
      · intro q hq
        rw [List.find?_cons_of_neg _ hprn] at hq
        obtain ⟨he, hl⟩ := ih4 q hq
        refine ⟨?_, ?_⟩
        · simp [hstep, withStep, he, List.takeWhile_cons, hpr]
        · simp [hstep, withStep, hl]
    · -- branch ok
      have hb' : (inputs.branch != "" && r.head_branch != inputs.branch) = false := by
        simpa using hb
      cases hv : inputs.verify with
      | false =>
        by_cases hj : (inputs.job != "" && !(foundJobLoop inputs.job (jobsOf r.id))) = true
        · -- job check fails: skipped
          have hpr : passes inputs (verifiedOf fetch st) jobsOf r = false := by
            simp [passes, hb', hj]
          have hprn : ¬ (passes inputs (verifiedOf fetch st) jobsOf r = true) := by
            simp [hpr]
          have hstep : scanLoop inputs fetch jobsOf (r :: rest) st last
              = withStep [] (scanLoop inputs fetch jobsOf rest st (some r.head_sha)) := by
            simp [scanLoop, hb', hv, hj]
          obtain ⟨ih1, ih2, ih3, ih4⟩ := ih st (some r.head_sha)
          refine ⟨?_, ?_, ?_, ?_⟩
          · simp [hstep, withStep, ih1, List.find?_cons_of_neg _ hprn]
          · simp [hstep, withStep, ih2]
          · intro hnone
            rw [List.find?_cons_of_neg _ hprn] at hnone
            simp [hstep, withStep, ih3 hnone]
          · intro q hq
            rw [List.find?_cons_of_neg _ hprn] at hq
            obtain ⟨he, hl⟩ := ih4 q hq
            refine ⟨?_, ?_⟩
            · simp [hstep, withStep, he, List.takeWhile_cons, hpr]
            · simp [hstep, withStep, hl]
        · -- accepted
          have hj' : (inputs.job != "" && !(foundJobLoop inputs.job (jobsOf r.id))) = false := by
            simpa using hj
          have hpr : passes inputs (verifiedOf fetch st) jobsOf r = true := by
            simp [passes, hb', hv, hj']
          have hstep : scanLoop inputs fetch jobsOf (r :: rest) st last
              = { sha := some r.head_sha, lastSha := some r.head_sha, state := st,
                  examined := 1,
                  events := [LogEvent.usingShaInfo r.head_sha inputs.verify] } := by
            simp [scanLoop, hb', hv, hj']
          refine ⟨?_, ?_, ?_, ?_⟩
          · simp [hstep, List.find?_cons_of_pos _ hpr]
          · simp [hstep]
          · intro hnone
            rw [List.find?_cons_of_pos _ hpr] at hnone
            simp at hnone
          · intro q hq
            rw [List.find?_cons_of_pos _ hpr] at hq
            obtain rfl : r = q := by simpa using hq
            refine ⟨?_, ?_⟩
            · simp [hstep, List.takeWhile_cons, hpr]
            · simp [hstep]
      | true =>
        have hok := verifyCommit_ok fetch r.head_sha st
        have hst2 := verifyCommit_state fetch r.head_sha st
        cases hvr : verifiedOf fetch st r.head_sha with
        | false =>
          -- verification fails: skipped, cache possibly settled
          have hokf : (verifyCommit fetch r.head_sha st).ok = false := by
            rw [hok, hvr]
          have hpr : passes inputs (verifiedOf fetch st) jobsOf r = false := by
            simp [passes, hv, hvr]
          have hprn : ¬ (passes inputs (verifiedOf fetch st) jobsOf r = true) := by
            simp [hpr]
          have hstep : scanLoop inputs fetch jobsOf (r :: rest) st last
              = withStep ((verifyCommit fetch r.head_sha st).events
                    ++ [LogEvent.verifyFailWarning r.head_sha])
                  (scanLoop inputs fetch jobsOf rest
                    (verifyCommit fetch r.head_sha st).state (some r.head_sha)) := by
            simp [scanLoop, hb', hv, hokf]
          obtain ⟨ih1, ih2, ih3, ih4⟩ :=
            ih (verifyCommit fetch r.head_sha st).state (some r.head_sha)
          rw [hst2] at ih1 ih2 ih3 ih4
          refine ⟨?_, ?_, ?_, ?_⟩
          · simp [hstep, withStep, ih1, List.find?_cons_of_neg _ hprn]
          · simp [hstep, withStep, ih2]
          · intro hnone
            rw [List.find?_cons_of_neg _ hprn] at hnone
            simp [hstep, withStep, ih3 hnone]
          · intro q hq
            rw [List.find?_cons_of_neg _ hprn] at hq
            obtain ⟨he, hl⟩ := ih4 q hq
            refine ⟨?_, ?_⟩
            · simp [hstep, withStep, he, List.takeWhile_cons, hpr]
            · simp [hstep, withStep, hl]
        | true =>
          have hokt : (verifyCommit fetch r.head_sha st).ok = true := by
            rw [hok, hvr]
          by_cases hj : (inputs.job != "" && !(foundJobLoop inputs.job (jobsOf r.id))) = true
          · -- job check fails after successful verification: skipped
            have hpr : passes inputs (verifiedOf fetch st) jobsOf r = false := by
              simp [passes, hj]
            have hprn : ¬ (passes inputs (verifiedOf fetch st) jobsOf r = true) := by
              simp [hpr]
            have hstep : scanLoop inputs fetch jobsOf (r :: rest) st last
                = withStep (verifyCommit fetch r.head_sha st).events
                    (scanLoop inputs fetch jobsOf rest
                      (verifyCommit fetch r.head_sha st).state (some r.head_sha)) := by
              simp [scanLoop, hb', hv, hokt, hj]
            obtain ⟨ih1, ih2, ih3, ih4⟩ :=
              ih (verifyCommit fetch r.head_sha st).state (some r.head_sha)
            rw [hst2] at ih1 ih2 ih3 ih4
            refine ⟨?_, ?_, ?_, ?_⟩
            · simp [hstep, withStep, ih1, List.find?_cons_of_neg _ hprn]
            · simp [hstep, withStep, ih2]
            · intro hnone
              rw [List.find?_cons_of_neg _ hprn] at hnone
              simp [hstep, withStep, ih3 hnone]
            · intro q hq
              rw [List.find?_cons_of_neg _ hprn] at hq
              obtain ⟨he, hl⟩ := ih4 q hq
              refine ⟨?_, ?_⟩
              · simp [hstep, withStep, he, List.takeWhile_cons, hpr]
              · simp [hstep, withStep, hl]
          · -- accepted after successful verification
            have hj' : (inputs.job != "" && !(foundJobLoop inputs.job (jobsOf r.id))) = false := by
              simpa using hj
            have hpr : passes inputs (verifiedOf fetch st) jobsOf r = true := by
              simp [passes, hb', hv, hvr, hj']
            have hstep : scanLoop inputs fetch jobsOf (r :: rest) st last
                = { sha := some r.head_sha, lastSha := some r.head_sha,
                    state := (verifyCommit fetch r.head_sha st).state,
                    examined := 1,
                    events := (verifyCommit fetch r.head_sha st).events
                      ++ [LogEvent.usingShaInfo r.head_sha inputs.verify] } := by
              simp [scanLoop, hb', hv, hokt, hj']
            refine ⟨?_, ?_, ?_, ?_⟩
            · simp [hstep, List.find?_cons_of_pos _ hpr]
            · simp [hstep, hst2]
            · intro hnone
              rw [List.find?_cons_of_pos _ hpr] at hnone
              simp at hnone
            · intro q hq
              rw [List.find?_cons_of_pos _ hpr] at hq
              obtain rfl : r = q := by simpa using hq
              refine ⟨?_, ?_⟩
              · simp [hstep, List.takeWhile_cons, hpr]
              · simp [hstep]

/-- The comparator is transitive. -/
theorem runLE_trans (a b c : RunRecord) (h1 : runLE a b) (h2 : runLE b c) :
    runLE a c := by
  simp [runLE] at h1 h2 ⊢
  omega

/-- The comparator is total. -/
theorem runLE_total (a b : RunRecord) : runLE a b || runLE b a := by
  simp [runLE]
  omega

/-- The ranked list is pairwise descending by creation time. -/
theorem rankRuns_pairwise (inputs : Inputs) (l : List RunRecord) :
    List.Pairwise (fun a b => b.created_at ≤ a.created_at) (rankRuns inputs l) := by
  have h := List.sorted_mergeSort runLE_trans runLE_total (l.filter (keepRun inputs))
  exact h.imp (fun hab => by simpa [runLE] using hab)

/-- Stability of the ranking: for each timestamp, the runs carrying it
appear in the ranked list exactly in their filtered input order. -/
theorem rankRuns_stable (inputs : Inputs) (l : List RunRecord) (t0 : Int) :
    (rankRuns inputs l).filter (fun r => r.created_at == t0)
      = (l.filter (keepRun inputs)).filter (fun r => r.created_at == t0) := by
  have hBsub : List.Sublist
      ((l.filter (keepRun inputs)).filter (fun r => r.created_at == t0))
      (l.filter (keepRun inputs)) := List.filter_sublist _
  have hBpair : ((l.filter (keepRun inputs)).filter
      (fun r => r.created_at == t0)).Pairwise (fun a b => runLE a b = true) := by
    apply List.pairwise_of_forall_mem_list
    intro a ha b hb
    have ha' := List.of_mem_filter ha
    have hb' := List.of_mem_filter hb
    simp only [beq_iff_eq] at ha' hb'
    simp [runLE, ha', hb']
  have hsub : List.Sublist
      ((l.filter (keepRun inputs)).filter (fun r => r.created_at == t0))
      ((l.filter (keepRun inputs)).mergeSort runLE) :=
    List.sublist_mergeSort runLE_trans runLE_total hBpair hBsub
  have hself : ((l.filter (keepRun inputs)).filter (fun r => r.created_at == t0)).filter
      (fun r => r.created_at == t0)
      = (l.filter (keepRun inputs)).filter (fun r => r.created_at == t0) := by
    rw [List.filter_eq_self]
    intro a ha
    exact (List.mem_filter.mp ha).2
  have hsub2 : List.Sublist
      ((l.filter (keepRun inputs)).filter (fun r => r.created_at == t0))
      (((l.filter (keepRun inputs)).mergeSort runLE).filter
          (fun r => r.created_at == t0)) := by
    rw [← hself]
    exact hsub.filter _
  have hperm : List.Perm
      (((l.filter (keepRun inputs)).mergeSort runLE).filter
        (fun r => r.created_at == t0))
      ((l.filter (keepRun inputs)).filter (fun r => r.created_at == t0)) :=
    (List.mergeSort_perm _ _).filter _
  exact (hsub2.eq_of_length hperm.length_eq.symm).symm

/-- Every ranked run satisfies the pre-ranking filter predicate. -/
theorem rankRuns_keep (inputs : Inputs) (wruns : List RunRecord) :
    ∀ r ∈ rankRuns inputs wruns, keepRun inputs r = true := by
  intro r hr
  rw [rankRuns, List.mem_mergeSort] at hr
  exact List.of_mem_filter hr

/-- Every ranked run already passes the defensive branch re-check: the
skip condition of lines 90-92 is false for it. -/
theorem rankRuns_branch_ok (inputs : Inputs) (wruns : List RunRecord) :
    ∀ r ∈ rankRuns inputs wruns,
      (inputs.branch != "" && r.head_branch != inputs.branch) = false := by
  intro r hr
  have hk := rankRuns_keep inputs wruns r hr
  simp only [keepRun, Bool.and_eq_true, Bool.or_eq_true, beq_iff_eq, bne_iff_ne] at hk
  rcases hk.1 with h | h <;> simp [h]

/-- On runs that all pass the branch re-check, the scan with and without
the re-check agree exactly. -/
theorem scanLoop_eq_NR (inputs : Inputs) (fetch : Except String (List String))
    (jobsOf : Nat → List JobOutcome) :
    ∀ (runs : List RunRecord) (st : VerifierState) (last : Option String),
    (∀ r ∈ runs, (inputs.branch != "" && r.head_branch != inputs.branch) = false) →
    scanLoop inputs fetch jobsOf runs st last
      = scanLoopNR inputs fetch jobsOf runs st last := by
  intro runs
  induction runs with
  | nil => intro st last _; rfl
  | cons r rest ih =>
    intro st last h
    have hr := h r (List.mem_cons_self r rest)
    have hrest : ∀ x ∈ rest, (inputs.branch != "" && x.head_branch != inputs.branch) = false :=
      fun x hx => h x (List.mem_cons_of_mem r hx)
    have ihh : ∀ (st' : VerifierState) (last' : Option String),
        scanLoop inputs fetch jobsOf rest st' last'
          = scanLoopNR inputs fetch jobsOf rest st' last' :=
      fun st' last' => ih st' last' hrest
    simp [scanLoop, scanLoopNR, hr, ihh]

/-- The repeated `lastSha` assignment over a non-empty list yields the last
element's SHA. -/
theorem foldl_lastSha :
    ∀ (l : List RunRecord) (r : RunRecord) (last : Option String),
    ∃ rl, (r :: l).getLast? = some rl
      ∧ (r :: l).foldl (fun _ x => some x.head_sha) last = some rl.head_sha := by
  intro l
  induction l with
  | nil => intro r last; exact ⟨r, rfl, rfl⟩
  | cons r2 rest ih =>
    intro r last
    obtain ⟨rl, h1, h2⟩ := ih r2 (some r.head_sha)
    exact ⟨rl, by simpa using h1, by simpa using h2⟩

/-- The failing prefix before the first hit of `find?` is what `takeWhile`
collects. -/
theorem takeWhile_not_of_split {α : Type} (p : α → Bool) (as bs : List α) (q : α)
    (ha : ∀ a ∈ as, p a = false) (hq : p q = true) :
    ((as ++ q :: bs).takeWhile (fun r => !(p r))) = as := by
  induction as with
  | nil => simp [hq]
  | cons a rest ih =>
    have h1 := ha a (List.mem_cons_self a rest)
    have h2 := ih (fun x hx => ha x (List.mem_cons_of_mem a hx))
    simp [h1, h2]

/-- C1: when the scan over the ranked (filtered, timestamp-descending) runs
produces a primary SHA, that SHA is the head SHA of the first ranked run
satisfying all enabled checks (branch match, commit verification when
`verify` is set, job success when a job filter is set), every earlier ranked
run fails some enabled check, and the scan stops there: it entered exactly
that run's position in iterations. -/
theorem c1_first_qualifying (inputs : Inputs) (fetch : Except String (List String))
    (jobsOf : Nat → List JobOutcome) (wruns : List RunRecord) (s : String)
    (h : (scanLoop inputs fetch jobsOf (rankRuns inputs wruns) ⟨none⟩ none).sha = some s) :
    ∃ r as bs, rankRuns inputs wruns = as ++ r :: bs
      ∧ passes inputs (fetchVerified fetch) jobsOf r = true
      ∧ (∀ a ∈ as, passes inputs (fetchVerified fetch) jobsOf a = false)
      ∧ s = r.head_sha
      ∧ (scanLoop inputs fetch jobsOf (rankRuns inputs wruns) ⟨none⟩ none).examined
          = as.length + 1 := by
  obtain ⟨h1, h2, h3, h4⟩ :=
    scanLoop_spec inputs fetch jobsOf (rankRuns inputs wruns) ⟨none⟩ none
  rw [verifiedOf_initial] at h1 h4
  rw [h1] at h
  cases hf : (rankRuns inputs wruns).find?
      (passes inputs (fetchVerified fetch) jobsOf) with
  | none => rw [hf] at h; simp at h
  | some q =>
    rw [hf] at h
    simp at h
    obtain ⟨hq, as, bs, hsplit, hprev⟩ := List.find?_eq_some.mp hf
    have hprev' : ∀ a ∈ as, passes inputs (fetchVerified fetch) jobsOf a = false := by
      intro a ha
      have := hprev a ha
      simpa using this
    obtain ⟨he, _⟩ := h4 q hf
    refine ⟨q, as, bs, hsplit, hq, hprev', h.symm, ?_⟩
    rw [he, hsplit,
      takeWhile_not_of_split (passes inputs (fetchVerified fetch) jobsOf) as bs q hprev' hq]

/-- C1 witness: a concrete scan that produces a primary SHA. -/
theorem c1_first_qualifying_witness :
    ∃ r as bs, rankRuns cInputsPlain [cRunW] = as ++ r :: bs
      ∧ passes cInputsPlain (fetchVerified (Except.ok [])) noJobs r = true
      ∧ (∀ a ∈ as, passes cInputsPlain (fetchVerified (Except.ok [])) noJobs a = false)
      ∧ "W" = r.head_sha
      ∧ (scanLoop cInputsPlain (Except.ok []) noJobs
          (rankRuns cInputsPlain [cRunW]) ⟨none⟩ none).examined = as.length + 1 := by
  have hrank : rankRuns cInputsPlain [cRunW] = [cRunW] := by
    rw [rankRuns, show ([cRunW].filter (keepRun cInputsPlain)) = [cRunW] from by decide]
    exact List.mergeSort_singleton cRunW
  exact c1_first_qualifying cInputsPlain (Except.ok []) noJobs [cRunW] "W"
    (by rw [hrank]; decide)

/-- C2: a run is kept by the pre-ranking filter iff (the branch filter is
unset or the run's branch equals it) and (the job filter is set or the run's
conclusion is `"success"`). -/
theorem c2_keep_iff (inputs : Inputs) (wruns : List RunRecord) (x : RunRecord) :
    x ∈ wruns.filter (keepRun inputs) ↔
      x ∈ wruns ∧ ((inputs.branch = "" ∨ x.head_branch = inputs.branch)
        ∧ (inputs.job ≠ "" ∨ x.conclusion = "success")) := by
  simp [List.mem_filter, keepRun]

/-- C4: the ranked output is pairwise descending by created timestamp, and
runs with equal timestamps keep their original (filtered) fetch order. -/
theorem c4_ranked_descending_stable (inputs : Inputs) (l : List RunRecord) :
    List.Pairwise (fun a b => b.created_at ≤ a.created_at) (rankRuns inputs l)
    ∧ ∀ t0 : Int,
      (rankRuns inputs l).filter (fun r => r.created_at == t0)
        = (l.filter (keepRun inputs)).filter (fun r => r.created_at == t0) :=
  ⟨rankRuns_pairwise inputs l, rankRuns_stable inputs l⟩

/-- C10: every run reaching the scan already passes the branch filter, so
the defensive branch re-check never causes a skip, and the whole scan result
(selected SHA, fallback, state, iteration count, logs) is unchanged when the
re-check is removed. -/
theorem c10_branch_recheck_redundant (inputs : Inputs)
    (fetch : Except String (List String)) (jobsOf : Nat → List JobOutcome)
    (wruns : List RunRecord) (st : VerifierState) (last : Option String) :
    (∀ r ∈ rankRuns inputs wruns,
      (inputs.branch != "" && r.head_branch != inputs.branch) = false)
    ∧ scanLoop inputs fetch jobsOf (rankRuns inputs wruns) st last
        = scanLoopNR inputs fetch jobsOf (rankRuns inputs wruns) st last :=
  ⟨rankRuns_branch_ok inputs wruns,
   scanLoop_eq_NR inputs fetch jobsOf (rankRuns inputs wruns) st last
     (rankRuns_branch_ok inputs wruns)⟩

/-- C3 counterexample: with a job filter and no matching jobs, no ranked run
qualifies; the ranked sequence starts with the run whose SHA is `"A"`
(the most recent), yet the emitted SHA is `"B"` — the SHA of the LAST
(oldest) ranked run, not of the first run encountered. -/
theorem c3_fallback_counterexample :
    (rankRuns cInputsJob [cRunA, cRunB]).head? = some cRunA
    ∧ cRunA.head_sha = "A"
    ∧ (∀ r ∈ rankRuns cInputsJob [cRunA, cRunB],
        passes cInputsJob (fetchVerified (Except.ok [])) noJobs r = false)
    ∧ (selectSha cInputsJob (Except.ok []) noJobs [cRunA, cRunB]).sha = some "B"
    ∧ some "B" ≠ some "A" := by
  have hrank : rankRuns cInputsJob [cRunA, cRunB] = [cRunA, cRunB] := by
    rw [rankRuns,
      show ([cRunA, cRunB].filter (keepRun cInputsJob)) = [cRunA, cRunB] from by decide]
    exact List.mergeSort_of_sorted (by decide)
  refine ⟨by rw [hrank]; rfl, rfl, ?_, ?_, by decide⟩
  · rw [hrank]; decide
  · simp only [selectSha]
    rw [hrank]
    decide

/-- C3 as amended: when the ranked sequence is non-empty and no ranked run
satisfies all enabled checks, the emitted SHA is the fallback SHA, which is
the head SHA of the LAST run examined — the OLDEST run in the ranked
order — and the "unable to determine" warning is emitted. -/
theorem c3_fallback_amended (inputs : Inputs) (fetch : Except String (List String))
    (jobsOf : Nat → List JobOutcome) (wruns : List RunRecord)
    (hne : rankRuns inputs wruns ≠ [])
    (hall : ∀ r ∈ rankRuns inputs wruns,
        passes inputs (fetchVerified fetch) jobsOf r = false) :
    ∃ rl, (rankRuns inputs wruns).getLast? = some rl
      ∧ (selectSha inputs fetch jobsOf wruns).sha = some rl.head_sha
      ∧ LogEvent.unableToDetermineWarning
          ∈ (selectSha inputs fetch jobsOf wruns).events := by
  obtain ⟨h1, h2, h3, h4⟩ :=
    scanLoop_spec inputs fetch jobsOf (rankRuns inputs wruns) ⟨none⟩ none
  rw [verifiedOf_initial] at h1 h3
  have hfind : (rankRuns inputs wruns).find?
      (passes inputs (fetchVerified fetch) jobsOf) = none :=
    List.find?_eq_none.mpr (fun x hx => by simp [hall x hx])
  have hsha : (scanLoop inputs fetch jobsOf (rankRuns inputs wruns) ⟨none⟩ none).sha
      = none := by
    rw [h1, hfind]; rfl
  have hlast := h3 hfind
  cases hr : rankRuns inputs wruns with
  | nil => exact absurd hr hne
  | cons r l =>
    rw [hr] at hsha hlast
    obtain ⟨rl, hgl, hfold⟩ := foldl_lastSha l r none
    have hsel : selectSha inputs fetch jobsOf wruns
        = { sha := (scanLoop inputs fetch jobsOf (r :: l) ⟨none⟩ none).lastSha,
            events := (scanLoop inputs fetch jobsOf (r :: l) ⟨none⟩ none).events
              ++ [LogEvent.unableToDetermineWarning] } := by
      simp only [selectSha]
      rw [hr]
      simp [hsha, jsFalsyStr]
    refine ⟨rl, hgl, ?_, ?_⟩
    · rw [hsel]
      show (scanLoop inputs fetch jobsOf (r :: l) ⟨none⟩ none).lastSha
          = some rl.head_sha
      rw [hlast]
      exact hfold
    · rw [hsel]
      show LogEvent.unableToDetermineWarning
          ∈ (scanLoop inputs fetch jobsOf (r :: l) ⟨none⟩ none).events
            ++ [LogEvent.unableToDetermineWarning]
      simp

/-- C3 amended witness: the concrete two-run input exercises the amended
fallback statement. -/
theorem c3_fallback_amended_witness :
    ∃ rl, (rankRuns cInputsJob [cRunA, cRunB]).getLast? = some rl
      ∧ (selectSha cInputsJob (Except.ok []) noJobs [cRunA, cRunB]).sha
          = some rl.head_sha
      ∧ LogEvent.unableToDetermineWarning
          ∈ (selectSha cInputsJob (Except.ok []) noJobs [cRunA, cRunB]).events := by
  have hrank : rankRuns cInputsJob [cRunA, cRunB] = [cRunA, cRunB] := by
    rw [rankRuns,
      show ([cRunA, cRunB].filter (keepRun cInputsJob)) = [cRunA, cRunB] from by decide]
    exact List.mergeSort_of_sorted (by decide)
  exact c3_fallback_amended cInputsJob (Except.ok []) noJobs [cRunA, cRunB]
    (by rw [hrank]; decide) (by rw [hrank]; decide)

/-- C5 counterexample: with zero runs the emitted SHA is absent, but the
"unable to determine" warning IS logged, contrary to the claim that no such
warning appears. -/
theorem c5_empty_counterexample :
    rankRuns cInputsPlain [] = []
    ∧ (selectSha cInputsPlain (Except.ok []) noJobs []).sha = none
    ∧ LogEvent.unableToDetermineWarning
        ∈ (selectSha cInputsPlain (Except.ok []) noJobs []).events := by
  have h0 : rankRuns cInputsPlain [] = [] := by simp [rankRuns]
  refine ⟨h0, ?_, ?_⟩
  · simp only [selectSha]; rw [h0]; decide
  · simp only [selectSha]; rw [h0]; decide

/-- C5 as amended: when the ranked sequence is empty, no SHA is produced and
the informational "no previous runs" log is emitted, but the code ALSO logs
the "unable to determine" warning (the `if (!sha)` fallback fires too). -/
theorem c5_empty_amended (inputs : Inputs) (fetch : Except String (List String))
    (jobsOf : Nat → List JobOutcome) (wruns : List RunRecord)
    (h : rankRuns inputs wruns = []) :
    (selectSha inputs fetch jobsOf wruns).sha = none
    ∧ (selectSha inputs fetch jobsOf wruns).events
        = [LogEvent.noPreviousRunsInfo, LogEvent.unableToDetermineWarning] := by
  constructor <;> (simp only [selectSha]; rw [h]; simp [jsFalsyStr])

/-- C5 amended witness: the empty input instantiates the amended claim. -/
theorem c5_empty_amended_witness :
    (selectSha cInputsPlain (Except.ok []) noJobs []).sha = none
    ∧ (selectSha cInputsPlain (Except.ok []) noJobs []).events
        = [LogEvent.noPreviousRunsInfo, LogEvent.unableToDetermineWarning] :=
  c5_empty_amended cInputsPlain (Except.ok []) noJobs [] (by simp [rankRuns])

/-- C6: when the first history listing fails, the cache becomes the empty
set, a warning is surfaced, that call returns false, and any subsequent call
(whatever the outside world would now answer) returns false, leaves the
cache unchanged, and performs no history-listing invocation. -/
theorem c6_history_failure (err sha sha2 : String)
    (fetch2 : Except String (List String)) :
    (verifyCommit (Except.error err) sha ⟨none⟩).ok = false
    ∧ (verifyCommit (Except.error err) sha ⟨none⟩).state = ⟨some []⟩
    ∧ LogEvent.fetchShasError ∈ (verifyCommit (Except.error err) sha ⟨none⟩).events
    ∧ (verifyCommit fetch2 sha2 ⟨some []⟩).ok = false
    ∧ (verifyCommit fetch2 sha2 ⟨some []⟩).state = ⟨some []⟩
    ∧ (verifyCommit fetch2 sha2 ⟨some []⟩).events.countP isFetchInfo = 0 :=
  ⟨rfl, rfl, by simp [verifyCommit], rfl, rfl, rfl⟩

/-- C7: after a successful first history fetch, a second verify call with
the same SHA returns the same boolean, and the two calls together perform
exactly one history-listing invocation. -/
theorem c7_verify_idempotent (l : List String) (sha : String) :
    (verifyCommit (Except.ok l) sha
        (verifyCommit (Except.ok l) sha ⟨none⟩).state).ok
      = (verifyCommit (Except.ok l) sha ⟨none⟩).ok
    ∧ ((verifyCommit (Except.ok l) sha ⟨none⟩).events
        ++ (verifyCommit (Except.ok l) sha
            (verifyCommit (Except.ok l) sha ⟨none⟩).state).events).countP
          isFetchInfo = 1 :=
  ⟨rfl, rfl⟩

/-- C8: with a job filter set, the job check passes iff the run's fetched
jobs contain one whose name equals the filter exactly (case-sensitive
string equality) and whose conclusion is `"success"`; when no such job
exists, the run is skipped and the scan's primary result is that of the
remaining candidates. -/
theorem c8_job_check (inputs : Inputs) (fetch : Except String (List String))
    (jobsOf : Nat → List JobOutcome) (r : RunRecord) (rest : List RunRecord)
    (st : VerifierState) (last : Option String)
    (hjob : inputs.job ≠ "") :
    (foundJobLoop inputs.job (jobsOf r.id) = true ↔
      ∃ j ∈ jobsOf r.id, j.name = inputs.job ∧ j.conclusion = "success")
    ∧ (foundJobLoop inputs.job (jobsOf r.id) = false →
        (scanLoop inputs fetch jobsOf (r :: rest) st last).sha
          = (scanLoop inputs fetch jobsOf rest st last).sha) := by
  refine ⟨foundJobLoop_iff _ _, fun hnf => ?_⟩
  have hj2 : (inputs.job != "") = true := bne_iff_ne.mpr hjob
  have hpr : passes inputs (verifiedOf fetch st) jobsOf r = false := by
    simp [passes, hnf, hj2]
  have hprn : ¬ (passes inputs (verifiedOf fetch st) jobsOf r = true) := by
    simp [hpr]
  have h1 := (scanLoop_spec inputs fetch jobsOf (r :: rest) st last).1
  have h2 := (scanLoop_spec inputs fetch jobsOf rest st last).1
  rw [h1, h2, List.find?_cons_of_neg _ hprn]

/-- C8 witness: a concrete run with no jobs fails the job check and the scan
moves on. -/
theorem c8_job_check_witness :
    (foundJobLoop cInputsJob.job (noJobs cRunA.id) = true ↔
      ∃ j ∈ noJobs cRunA.id, j.name = cInputsJob.job ∧ j.conclusion = "success")
    ∧ (foundJobLoop cInputsJob.job (noJobs cRunA.id) = false →
        (scanLoop cInputsJob (Except.ok []) noJobs (cRunA :: []) ⟨none⟩ none).sha
          = (scanLoop cInputsJob (Except.ok []) noJobs [] ⟨none⟩ none).sha) :=
  c8_job_check cInputsJob (Except.ok []) noJobs cRunA [] ⟨none⟩ none (by decide)

/-- C9: when verification is enabled and the verifier's cached history set
is empty, the scan never assigns a primary SHA, whatever the candidate runs
are — so only the fallback path can produce output. -/
theorem c9_empty_history_no_primary (inputs : Inputs)
    (fetch : Except String (List String)) (jobsOf : Nat → List JobOutcome)
    (runs : List RunRecord) (st : VerifierState) (last : Option String)
    (hv : inputs.verify = true) (hemp : st.repoShas = some []) :
    (scanLoop inputs fetch jobsOf runs st last).sha = none := by
  have h1 := (scanLoop_spec inputs fetch jobsOf runs st last).1
  have hfind : runs.find? (passes inputs (verifiedOf fetch st) jobsOf) = none := by
    apply List.find?_eq_none.mpr
    intro x _
    simp [passes, hv, verifiedOf, hemp]
  rw [h1, hfind]
  rfl

/-- C9 witness: a concrete successful run is still rejected when the cached
history is empty. -/
theorem c9_empty_history_no_primary_witness :
    (scanLoop cInputsVerify (Except.ok []) noJobs [cRunW] ⟨some []⟩ none).sha = none :=
  c9_empty_history_no_primary cInputsVerify (Except.ok []) noJobs [cRunW]
    ⟨some []⟩ none rfl rfl

end LastBuild
